import Mathlib

/-!
Verification of the PDF chunking-and-embedding pipeline
(`pdf_extractor.py`).

Texts are modelled as `List Char`.  Python's `str.strip()` is modelled for
the ASCII whitespace characters; `str.split('. ')` is modelled by
`splitDotSpace` (leftmost, non-overlapping occurrences of the two-character
separator).  Remote effects (embedding service, object storage, datastore)
are modelled by explicit oracles, and Python exceptions by `Except`.
-/

/-! ## Definitions: shallow embedding of `pdf_extractor.py` -/

/-- The characters `str.strip()` removes (ASCII whitespace). -/
def pyIsSpace (c : Char) : Bool :=
  c = ' ' || c = '\t' || c = '\n' || c = '\r' || c = Char.ofNat 11 || c = Char.ofNat 12

/-- Remove leading whitespace, as Python `lstrip`. -/
def lstrip (s : List Char) : List Char := s.dropWhile pyIsSpace

/-- Remove trailing whitespace, as Python `rstrip`. -/
def rstrip (s : List Char) : List Char := (s.reverse.dropWhile pyIsSpace).reverse

/-- Python `str.strip()`. -/
def pyStrip (s : List Char) : List Char := rstrip (lstrip s)

/-- Python `text.split('. ')`: split on leftmost, non-overlapping
occurrences of the two-character separator `". "`. -/
def splitDotSpace : List Char → List (List Char)
  | [] => [[]]
  | [c] => [[c]]
  | c1 :: c2 :: rest =>
    if c1 = '.' ∧ c2 = ' ' then [] :: splitDotSpace rest
    else
      match splitDotSpace (c2 :: rest) with
      | [] => [[c1]]
      | h :: t => (c1 :: h) :: t

/-- A sentence as the loop body rewrites it before accumulating:
stripped, with `". "` appended (line 97 of `pdf_extractor.py`). -/
def sentUnit (s : List Char) : List Char := pyStrip s ++ ['.', ' ']

/-- One iteration of the sentence-accumulation loop of
`split_into_chunks` (lines 96-104 of `pdf_extractor.py`).
The state is `(chunks, current_chunk)`. -/
def chunkStep (maxSize : Nat) (st : List (List Char) × List Char) (sentence : List Char) :
    List (List Char) × List Char :=
  let s := sentUnit sentence
  if maxSize < st.2.length + s.length then
    (if pyStrip st.2 = [] then st.1 else st.1 ++ [pyStrip st.2], s)
  else
    (st.1, st.2 ++ s)

/-- `PDFExtractor.split_into_chunks` (lines 89-110 of `pdf_extractor.py`).
The `overlap` parameter is accepted but never used, as in the source. -/
def split_into_chunks (text : List Char) (maxSize : Nat) (overlap : Nat) :
    List (List Char) :=
  let st := (splitDotSpace text).foldl (chunkStep maxSize) ([], [])
  if pyStrip st.2 = [] then st.1 else st.1 ++ [pyStrip st.2]

/-- A list that does not start with Python whitespace. -/
def NoLead (l : List Char) : Prop := ∀ c t, l = c :: t → pyIsSpace c = false

/-- Invariant of `current_chunk`: it is either empty or a `". "`-terminated
accumulation that starts with a non-whitespace character. -/
def GoodCur (cur : List Char) : Prop :=
  cur = [] ∨ (NoLead cur ∧ ∃ y, cur = y ++ ['.', ' '])

/-- Shape of every emitted chunk: no leading whitespace and a final `'.'`. -/
def ChunkShape (c : List Char) : Prop :=
  NoLead c ∧ ∃ y, c = y ++ ['.']

/-- Concatenation of chunks, each followed by the single space that
`strip()` removed when the chunk was emitted. -/
def joinSp (chunks : List (List Char)) : List Char :=
  (chunks.map (fun c => c ++ [' '])).flatten

/-- Concatenation of the rewritten sentences in loop order. -/
def unitsJoin (ss : List (List Char)) : List Char := (ss.map sentUnit).flatten

/-- Whether the two-character separator `". "` occurs in a list. -/
def hasDS : List Char → Bool
  | [] => false
  | [_] => false
  | c1 :: c2 :: rest => (c1 = '.' && c2 = ' ') || hasDS (c2 :: rest)

/-- Bound invariant of the accumulator: within `maxSize`, or a single
rewritten sentence. -/
def CurOk (S : List (List Char)) (m : Nat) (cur : List Char) : Prop :=
  cur.length ≤ m ∨ ∃ s, s ∈ S ∧ cur = sentUnit s

/-- Bound property of an emitted chunk: within `maxSize`, or a single
oversized sentence (never split mid-sentence). -/
def ChunkOk (S : List (List Char)) (m : Nat) (c : List Char) : Prop :=
  c.length ≤ m ∨ ∃ s, s ∈ S ∧ c = pyStrip s ++ ['.'] ∧ m < (pyStrip s).length + 2

/-- An embedding vector (numeric components modelled as rationals). -/
abbrev Vec := List ℚ

/-- The zero placeholder vector of the configured dimension
(`[0.0] * 1536`, line 43). -/
def zeroVec : Vec := List.replicate 1536 0

/-- The remote embedding service, as an oracle: per batch number and batch
content it either returns vectors or raises. -/
abbrev EmbedSvc := Nat → List (List Char) → Except Unit (List Vec)

/-- The body of one loop iteration of `embed_texts`: on success the
service's vectors, on any exception one zero vector per text of the batch
(lines 32-43). -/
def batchResult (svc : EmbedSvc) (k : Nat) (batch : List (List Char)) : List Vec :=
  match svc k batch with
  | .ok vs => vs
  | .error _ => List.replicate batch.length zeroVec

/-- The batching loop of `embed_texts` (line 30): `k` is the batch number
(`i // 100`). -/
def embedGo (svc : EmbedSvc) : Nat → List (List Char) → List Vec
  | _, [] => []
  | k, t :: ts =>
    batchResult svc k ((t :: ts).take 100) ++ embedGo svc (k + 1) ((t :: ts).drop 100)
  termination_by _ ts => ts.length
  decreasing_by simp [List.length_drop]; omega

/-- `PDFExtractor.embed_texts` (lines 26-45). -/
def embed_texts (svc : EmbedSvc) (texts : List (List Char)) : List Vec :=
  embedGo svc 0 texts

/-- Outcome oracle for one fetch: the storage download (which can raise, or
return no content, or return bytes) and the PDF open/page-extraction (which
can raise, or yield per-page optional text). -/
structure FetchWorld where
  download : Except Unit (Option (List Nat))
  parse : Except Unit (List (Option (List Char)))

/-- Result of a fetch: the returned text, whether the scratch file was
written, and whether it was removed before returning. -/
structure FetchResult where
  text : List Char
  tempWritten : Bool
  tempRemoved : Bool
deriving DecidableEq

/-- The page loop (lines 74-78): pages with no extractable text contribute
nothing; extracted text is concatenated with a newline after each page. -/
def extractPages (pages : List (Option (List Char))) : List Char :=
  pages.foldl (fun acc p =>
    match p with
    | some t => acc ++ t ++ ['\n']
    | none => acc) []

/-- `get_pdf_content_from_supabase` (lines 56-87): download, write scratch
file, parse, remove scratch file on the success path only; every raised
exception is caught and the empty string returned. -/
def get_pdf_content_from_supabase (w : FetchWorld) : FetchResult :=
  match w.download with
  | .error _ => ⟨[], false, false⟩
  | .ok none => ⟨[], false, false⟩
  | .ok (some _) =>
    match w.parse with
    | .error _ => ⟨[], true, false⟩
    | .ok pages => ⟨extractPages pages, true, true⟩

/-- The literal timestamp value the code sends (`'now()'`). -/
def nowStr : List Char := "now()".toList

/-- The message of the exception raised on empty extracted text (line 122). -/
def noContentMsg : List Char := "No text content extracted from PDF".toList

/-- Modelled message of a datastore exception raised by the final success
update (`str(e)` of whatever the client raises; modelled as a fixed
non-empty string). -/
def updateFailMsg : List Char := "update failed".toList

/-- One row of `project_knowledge`. -/
structure KnowledgeRecord where
  id : Nat
  project_id : Nat
  file_path : List Char
  file_name : List Char
  processed : Bool
  processed_at : Option (List Char)
  chunks_count : Option Nat
  processing_error : Option (List Char)
deriving DecidableEq

/-- One row of `project_embeddings`. -/
structure EmbeddingRow where
  project_id : Nat
  knowledge_id : Nat
  content_chunk : List Char
  embedding : Vec
  chunk_index : Nat
  created_at : List Char
deriving DecidableEq

/-- The two datastore tables. -/
structure DB where
  knowledge : List KnowledgeRecord
  embeddings : List EmbeddingRow
deriving DecidableEq

/-- Partial update by id on `project_knowledge` (`.update(...).eq('id', kid)`). -/
def updateRecord (kid : Nat) (f : KnowledgeRecord → KnowledgeRecord) (db : DB) : DB :=
  { db with knowledge := db.knowledge.map (fun r => if r.id = kid then f r else r) }

/-- The failure update (lines 166-169): only `processed` and
`processing_error` are set. -/
def markFailed (msg : List Char) (r : KnowledgeRecord) : KnowledgeRecord :=
  { r with processed := false, processing_error := some msg }

/-- The success update (lines 157-161): only `processed`, `processed_at`
and `chunks_count` are set. -/
def markSuccess (n : Nat) (r : KnowledgeRecord) : KnowledgeRecord :=
  { r with processed := true, processed_at := some nowStr, chunks_count := some n }

/-- The persistence loop (lines 137-152): one insert per (chunk, vector)
pair of `zip(text_chunks, embeddings)` with its index; an insert that
raises is logged and skipped. -/
def insertRows (pid kid : Nat) (insOk : Nat → Bool) (chunks : List (List Char))
    (embeds : List Vec) (db : DB) : DB :=
  { db with embeddings := db.embeddings ++
      ((chunks.zip embeds).enum.filterMap (fun p =>
        if insOk p.1 then
          some ⟨pid, kid, p.2.1, p.2.2, p.1, nowStr⟩
        else none)) }

/-- Outcome oracle for one `process_pdf_and_store_embeddings` call. -/
structure ProcWorld where
  fetch : FetchWorld
  svc : EmbedSvc
  insertOk : Nat → Bool
  successUpdateRaises : Bool

/-- `process_pdf_and_store_embeddings` (lines 112-170): fetch, chunk,
embed, best-effort insert, success update; on a raised exception the
failure update runs and the exception is re-raised (the `.error` carries
the message and the datastore state after the failure update).  The
failure update itself is assumed to succeed. -/
def process_pdf_and_store_embeddings (w : ProcWorld) (project_id knowledge_id : Nat)
    (file_path file_name : List Char) (db : DB) : Except (List Char × DB) DB :=
  let text := (get_pdf_content_from_supabase w.fetch).text
  if text = [] then
    .error (noContentMsg, updateRecord knowledge_id (markFailed noContentMsg) db)
  else
    let chunks := split_into_chunks text 1000 200
    let embeds := embed_texts w.svc chunks
    let db1 := insertRows project_id knowledge_id w.insertOk chunks embeds db
    if w.successUpdateRaises then
      .error (updateFailMsg, updateRecord knowledge_id (markFailed updateFailMsg) db1)
    else
      .ok (updateRecord knowledge_id (markSuccess chunks.length) db1)

/-- Outcome oracle for a whole queue scan: whether the initial query raises
(in which case `get_unprocessed_pdfs` returns `[]`, line 179), and the
oracle for each record's processing, by knowledge id. -/
structure AllWorld where
  queryRaises : Bool
  perRecord : Nat → ProcWorld

/-- `get_unprocessed_pdfs` (lines 172-179). -/
def get_unprocessed_pdfs (queryRaises : Bool) (db : DB) : List KnowledgeRecord :=
  if queryRaises then [] else db.knowledge.filter (fun r => r.processed == false)

/-- The scan loop of `process_all_unprocessed_pdfs` (lines 186-195): each
record is processed in order; an exception from one record is caught and
logged and the loop continues. -/
def processQueue (w : AllWorld) : List KnowledgeRecord → DB → DB
  | [], db => db
  | r :: rest, db =>
    match process_pdf_and_store_embeddings (w.perRecord r.id) r.project_id r.id
        r.file_path r.file_name db with
    | .ok db' => processQueue w rest db'
    | .error (_, db') => processQueue w rest db'

/-- `process_all_unprocessed_pdfs` (lines 181-195). -/
def process_all_unprocessed_pdfs (w : AllWorld) (db : DB) : DB :=
  processQueue w (get_unprocessed_pdfs w.queryRaises db) db

/-- Concrete oracle for the C3 counterexample and witness: fetch succeeds
with page text `"Hi"`, the embedding service raises (degrading to zero
vectors), every row insert raises (so it is visibly not the inserted-row
count that is stored), and the success update succeeds. -/
def cexWorld : ProcWorld :=
  ⟨⟨Except.ok (some []), Except.ok [some ['H', 'i']]⟩,
   fun _ _ => Except.error (), fun _ => false, false⟩

/-- Concrete datastore for the C3 counterexample and witness: one record,
unprocessed, carrying a stale error message from an earlier failed attempt. -/
def cexDB : DB :=
  ⟨[⟨1, 1, [], [], false, none, none, some ['o', 'l', 'd']⟩], []⟩

/-- The datastore state carried by either outcome of one processing call
(the state after the success update, or after the failure update that
precedes the re-raise). -/
def resDB : Except (List Char × DB) DB → DB
  | .ok db => db
  | .error (_, db) => db

/-- Characterization of one processing attempt's effect on its own
knowledge record, as a function of the attempt's oracle alone. -/
def recOutcome (w' : ProcWorld) (r : KnowledgeRecord) : KnowledgeRecord :=
  if (get_pdf_content_from_supabase w'.fetch).text = [] then
    markFailed noContentMsg r
  else if w'.successUpdateRaises then
    markFailed updateFailMsg r
  else
    markSuccess (split_into_chunks
      (get_pdf_content_from_supabase w'.fetch).text 1000 200).length r

/-- The per-record knowledge transform of one queue element. -/
def stepFn (w : AllWorld) (kid : Nat) (r : KnowledgeRecord) : KnowledgeRecord :=
  if r.id = kid then recOutcome (w.perRecord kid) r else r

/-- Folding the per-record steps of a whole queue over one record. -/
def applyQueue (w : AllWorld) (queue : List KnowledgeRecord)
    (rc : KnowledgeRecord) : KnowledgeRecord :=
  queue.foldl (fun rc q => stepFn w q.id rc) rc

/-- Concrete per-record oracle that raises at the final success update
(scenario D's record 2: "throws during persistence"). -/
def cexFailWorld : ProcWorld :=
  ⟨⟨Except.ok (some []), Except.ok [some ['H', 'i']]⟩,
   fun _ _ => Except.error (), fun _ => false, true⟩

/-- Concrete scan oracle: the query succeeds; record 2 throws during
persistence, records 1 and 3 succeed. -/
def scanWorld : AllWorld :=
  ⟨false, fun kid => if kid = 2 then cexFailWorld else cexWorld⟩

/-- Concrete queue of three unprocessed records. -/
def scanDB : DB :=
  ⟨[⟨1, 1, [], [], false, none, none, none⟩,
    ⟨2, 1, [], [], false, none, none, none⟩,
    ⟨3, 1, [], [], false, none, none, none⟩], []⟩

/-! ## Lemmas and claim theorems -/

lemma noLead_nil : NoLead [] := by intro c t h; cases h

lemma noLead_cons {c : Char} {t : List Char} (h : pyIsSpace c = false) :
    NoLead (c :: t) := by
  intro c' t' h'
  cases h'
  exact h

lemma lstrip_eq_self {l : List Char} (h : NoLead l) : lstrip l = l := by
  cases l with
  | nil => rfl
  | cons c t => simp [lstrip, List.dropWhile_cons, h c t rfl]

lemma noLead_lstrip (l : List Char) : NoLead (lstrip l) := by
  induction l with
  | nil => exact noLead_nil
  | cons c t ih =>
    by_cases h : pyIsSpace c
    · simpa [lstrip, List.dropWhile_cons, h] using ih
    · simp only [Bool.not_eq_true] at h
      simpa [lstrip, List.dropWhile_cons, h] using noLead_cons h

lemma lstrip_idem (l : List Char) : lstrip (lstrip l) = lstrip l :=
  lstrip_eq_self (noLead_lstrip l)

lemma rstrip_isPref (l : List Char) : rstrip l <+: l := by
  obtain ⟨t, ht⟩ := List.dropWhile_suffix (l := l.reverse) pyIsSpace
  exact ⟨t.reverse, by rw [rstrip, ← List.reverse_append, ht, List.reverse_reverse]⟩

lemma noLead_rstrip {l : List Char} (h : NoLead l) : NoLead (rstrip l) := by
  intro c t hct
  obtain ⟨r, hr⟩ := rstrip_isPref l
  rw [hct] at hr
  exact h c (t ++ r) hr.symm

lemma noLead_pyStrip (s : List Char) : NoLead (pyStrip s) :=
  noLead_rstrip (noLead_lstrip s)

lemma lstrip_pyStrip (s : List Char) : lstrip (pyStrip s) = pyStrip s :=
  lstrip_eq_self (noLead_pyStrip s)

lemma rstrip_concat_dot (y : List Char) : rstrip (y ++ ['.']) = y ++ ['.'] := by
  simp [rstrip, List.dropWhile_cons, pyIsSpace]

lemma rstrip_unit (y : List Char) : rstrip (y ++ ['.', ' ']) = y ++ ['.'] := by
  have : y ++ ['.', ' '] = (y ++ ['.']) ++ [' '] := by simp
  rw [this, rstrip]
  simp [List.dropWhile_cons, pyIsSpace]

lemma rstrip_length_le (l : List Char) : (rstrip l).length ≤ l.length :=
  (rstrip_isPref l).length_le

lemma lstrip_length_le (l : List Char) : (lstrip l).length ≤ l.length :=
  (List.dropWhile_suffix pyIsSpace).length_le

lemma pyStrip_length_le (s : List Char) : (pyStrip s).length ≤ s.length :=
  le_trans (rstrip_length_le _) (lstrip_length_le _)

/-- Under `NoLead`, stripping a `". "`-terminated accumulator only removes
the final space. -/
lemma pyStrip_of_unit_form {cur : List Char} (h : NoLead cur) (y : List Char)
    (hy : cur = y ++ ['.', ' ']) : pyStrip cur = y ++ ['.'] := by
  rw [pyStrip, lstrip_eq_self h, hy, rstrip_unit]

lemma noLead_sentUnit (s : List Char) : NoLead (sentUnit s) := by
  intro c t h
  rcases hps : pyStrip s with _ | ⟨c', t'⟩
  · rw [sentUnit, hps] at h
    cases h
    decide
  · rw [sentUnit, hps] at h
    cases h
    exact noLead_pyStrip s _ _ hps

lemma pyStrip_sentUnit (s : List Char) : pyStrip (sentUnit s) = pyStrip s ++ ['.'] :=
  pyStrip_of_unit_form (noLead_sentUnit s) (pyStrip s) rfl

lemma sentUnit_ne_nil (s : List Char) : sentUnit s ≠ [] := by
  simp [sentUnit]

lemma goodCur_nil : GoodCur [] := Or.inl rfl

lemma noLead_append_left {a : List Char} (h : NoLead a) (ha : a ≠ [])
    (b : List Char) : NoLead (a ++ b) := by
  cases a with
  | nil => exact absurd rfl ha
  | cons c t =>
    intro c' t' h'
    rw [List.cons_append] at h'
    cases h'
    exact h c t rfl

lemma goodCur_sentUnit (s : List Char) : GoodCur (sentUnit s) :=
  Or.inr ⟨noLead_sentUnit s, pyStrip s, rfl⟩

lemma goodCur_append_unit {cur : List Char} (h : GoodCur cur) (s : List Char) :
    GoodCur (cur ++ sentUnit s) := by
  rcases h with rfl | ⟨hnl, y, hy⟩
  · simpa using goodCur_sentUnit s
  · refine Or.inr ⟨noLead_append_left hnl (by simp [hy]) _, cur ++ pyStrip s, ?_⟩
    simp [sentUnit]

lemma goodCur_strip_nil {cur : List Char} (h : GoodCur cur)
    (hs : pyStrip cur = []) : cur = [] := by
  rcases h with rfl | ⟨hnl, y, hy⟩
  · rfl
  · rw [pyStrip_of_unit_form hnl y hy] at hs
    simp at hs

/-- Emitting a chunk: its shape, and the fact that the emitted chunk plus a
single space reconstitutes the accumulator exactly. -/
lemma emit_spec {cur : List Char} (h : GoodCur cur) (hne : pyStrip cur ≠ []) :
    ChunkShape (pyStrip cur) ∧ pyStrip cur ++ [' '] = cur := by
  rcases h with rfl | ⟨hnl, y, hy⟩
  · exact absurd rfl hne
  · rw [pyStrip_of_unit_form hnl y hy]
    exact ⟨⟨by rw [← pyStrip_of_unit_form hnl y hy]; exact noLead_pyStrip _,
      y, rfl⟩, by simp [hy]⟩

lemma joinSp_concat (l : List (List Char)) (c : List Char) :
    joinSp (l ++ [c]) = joinSp l ++ (c ++ [' ']) := by
  simp [joinSp]

lemma unitsJoin_cons (s : List Char) (ss : List (List Char)) :
    unitsJoin (s :: ss) = sentUnit s ++ unitsJoin ss := by
  simp [unitsJoin]

/-- Master invariant of the sentence loop: the accumulator stays `GoodCur`,
all emitted chunks are `ChunkShape`, and chunks-plus-accumulator exactly
reconstitute the rewritten sentences consumed so far. -/
lemma chunkStep_fold (m : Nat) :
    ∀ (ss : List (List Char)) (chunks : List (List Char)) (cur : List Char),
      GoodCur cur → (∀ c ∈ chunks, ChunkShape c) →
      GoodCur (ss.foldl (chunkStep m) (chunks, cur)).2 ∧
      (∀ c ∈ (ss.foldl (chunkStep m) (chunks, cur)).1, ChunkShape c) ∧
      joinSp (ss.foldl (chunkStep m) (chunks, cur)).1
          ++ (ss.foldl (chunkStep m) (chunks, cur)).2
        = joinSp chunks ++ cur ++ unitsJoin ss := by
  intro ss
  induction ss with
  | nil =>
    intro chunks cur hcur hch
    refine ⟨hcur, hch, ?_⟩
    simp [unitsJoin]
  | cons s ss ih =>
    intro chunks cur hcur hch
    rw [List.foldl_cons]
    by_cases hov : m < cur.length + (sentUnit s).length
    · by_cases hemp : pyStrip cur = []
      · have hcur0 : cur = [] := goodCur_strip_nil hcur hemp
        have hstep : chunkStep m (chunks, cur) s = (chunks, sentUnit s) := by
          simp [chunkStep, hov, hemp]
        rw [hstep]
        obtain ⟨h1, h2, h3⟩ := ih chunks (sentUnit s) (goodCur_sentUnit s) hch
        refine ⟨h1, h2, ?_⟩
        rw [h3, hcur0, unitsJoin_cons]
        simp
      · obtain ⟨hshape, hrec⟩ := emit_spec hcur hemp
        have hstep : chunkStep m (chunks, cur) s
            = (chunks ++ [pyStrip cur], sentUnit s) := by
          simp [chunkStep, hov, hemp]
        rw [hstep]
        have hch' : ∀ c ∈ chunks ++ [pyStrip cur], ChunkShape c := by
          intro c hc
          rcases List.mem_append.1 hc with hc | hc
          · exact hch c hc
          · rw [List.mem_singleton.1 hc]; exact hshape
        obtain ⟨h1, h2, h3⟩ := ih (chunks ++ [pyStrip cur]) (sentUnit s)
          (goodCur_sentUnit s) hch'
        refine ⟨h1, h2, ?_⟩
        rw [h3, joinSp_concat, hrec, unitsJoin_cons]
        simp
    · have hstep : chunkStep m (chunks, cur) s = (chunks, cur ++ sentUnit s) := by
        simp [chunkStep, hov]
      rw [hstep]
      obtain ⟨h1, h2, h3⟩ := ih chunks (cur ++ sentUnit s)
        (goodCur_append_unit hcur s) hch
      refine ⟨h1, h2, ?_⟩
      rw [h3, unitsJoin_cons]
      simp

/-- The chunks of `split_into_chunks`, each followed by one space,
concatenate to exactly the rewritten sentences of the input. -/
lemma split_into_chunks_join (text : List Char) (m o : Nat) :
    joinSp (split_into_chunks text m o) = unitsJoin (splitDotSpace text) := by
  obtain ⟨h1, _, h3⟩ :=
    chunkStep_fold m (splitDotSpace text) [] [] goodCur_nil (by simp)
  rw [split_into_chunks]
  set st := (splitDotSpace text).foldl (chunkStep m) ([], []) with hst
  by_cases hemp : pyStrip st.2 = []
  · have h0 : st.2 = [] := goodCur_strip_nil h1 hemp
    rw [if_pos hemp, ← List.append_nil (joinSp st.1), ← h0, h3]
    simp [joinSp]
  · obtain ⟨_, hrec⟩ := emit_spec h1 hemp
    rw [if_neg hemp, joinSp_concat, hrec, h3]
    simp [joinSp]

lemma hasDS_cons_false {c : Char} {l : List Char} (h : hasDS (c :: l) = false) :
    hasDS l = false := by
  cases l with
  | nil => rfl
  | cons c2 t =>
    rw [hasDS, Bool.or_eq_false_iff] at h
    exact h.2

lemma hasDS_append_left {a b : List Char} (h : hasDS (a ++ b) = false) :
    hasDS a = false := by
  induction a with
  | nil => rfl
  | cons c t ih =>
    cases t with
    | nil => rfl
    | cons c2 t' =>
      rw [List.cons_append, List.cons_append, hasDS, Bool.or_eq_false_iff] at h
      rw [← List.cons_append] at h
      have h2 : hasDS (c2 :: t') = false := ih h.2
      rw [hasDS, Bool.or_eq_false_iff]
      exact ⟨h.1, h2⟩

lemma hasDS_append_right {a b : List Char} (h : hasDS (a ++ b) = false) :
    hasDS b = false := by
  induction a with
  | nil => exact h
  | cons c t ih => exact ih (hasDS_cons_false h)

lemma hasDS_pyStrip {s : List Char} (h : hasDS s = false) :
    hasDS (pyStrip s) = false := by
  have hl : hasDS (lstrip s) = false := by
    obtain ⟨t, ht⟩ := List.dropWhile_suffix (l := s) pyIsSpace
    exact hasDS_append_right (ht ▸ h)
  obtain ⟨r, hr⟩ := rstrip_isPref (lstrip s)
  exact hasDS_append_left (a := rstrip (lstrip s)) (hr ▸ hl)

lemma splitDotSpace_ne_nil (l : List Char) : splitDotSpace l ≠ [] := by
  induction l using splitDotSpace.induct with
  | case1 => simp [splitDotSpace]
  | case2 c => simp [splitDotSpace]
  | case3 c1 c2 rest hsep ih => simp [splitDotSpace, hsep]
  | case4 c1 c2 rest hsep hnil ih => exact absurd hnil ih
  | case5 c1 c2 rest hsep hd tl heq ih =>
    rw [splitDotSpace, if_neg hsep, heq]
    simp

/-- The first piece returned by the splitter on a nonempty list is either
empty or starts with the list's first character. -/
lemma splitDotSpace_head {c : Char} {rest hd : List Char} {tl : List (List Char)}
    (h : splitDotSpace (c :: rest) = hd :: tl) :
    hd = [] ∨ ∃ h', hd = c :: h' := by
  cases rest with
  | nil =>
    rw [splitDotSpace] at h
    cases h
    exact Or.inr ⟨[], rfl⟩
  | cons c2 r =>
    by_cases hsep : c = '.' ∧ c2 = ' '
    · rw [splitDotSpace, if_pos hsep] at h
      cases h
      exact Or.inl rfl
    · rcases heq : splitDotSpace (c2 :: r) with _ | ⟨hd', tl'⟩
      · exact absurd heq (splitDotSpace_ne_nil _)
      · rw [splitDotSpace, if_neg hsep, heq] at h
        cases h
        exact Or.inr ⟨hd', rfl⟩

/-- No piece returned by the splitter contains the separator. -/
lemma splitDotSpace_no_sep (l : List Char) :
    ∀ s ∈ splitDotSpace l, hasDS s = false := by
  induction l using splitDotSpace.induct with
  | case1 => intro s hs; rw [splitDotSpace] at hs; simp at hs; simp [hs, hasDS]
  | case2 c => intro s hs; rw [splitDotSpace] at hs; simp at hs; simp [hs, hasDS]
  | case3 c1 c2 rest hsep ih =>
    intro s hs
    rw [splitDotSpace, if_pos hsep] at hs
    rcases List.mem_cons.1 hs with rfl | hs
    · rfl
    · exact ih s hs
  | case4 c1 c2 rest hsep hnil ih => exact absurd hnil (splitDotSpace_ne_nil _)
  | case5 c1 c2 rest hsep hd tl heq ih =>
    intro s hs
    rw [splitDotSpace, if_neg hsep, heq] at hs
    have hhd : hasDS hd = false := ih hd (heq ▸ List.mem_cons_self hd tl)
    rcases List.mem_cons.1 hs with rfl | hs
    · rcases splitDotSpace_head heq with rfl | ⟨h', rfl⟩
      · rfl
      · rw [hasDS, Bool.or_eq_false_iff]
        refine ⟨?_, hhd⟩
        by_cases h1 : c1 = '.'
        · have h2 : ¬ c2 = ' ' := fun h2 => hsep ⟨h1, h2⟩
          simp [h2]
        · simp [h1]
    · exact ih s (heq ▸ List.mem_cons_of_mem hd hs)

/-- Splitting finds exactly an inserted separator after a separator-free
prefix. -/
lemma splitDotSpace_append {x : List Char} (hx : hasDS x = false)
    (rest : List Char) :
    splitDotSpace (x ++ '.' :: ' ' :: rest) = x :: splitDotSpace rest := by
  induction x with
  | nil => simp [splitDotSpace]
  | cons c t ih =>
    cases t with
    | nil =>
      have hc : ¬ (c = '.' ∧ '.' = ' ') := by
        rintro ⟨-, h⟩
        exact absurd h (by decide)
      rw [List.cons_append, List.nil_append, splitDotSpace, if_neg hc]
      have : splitDotSpace ('.' :: ' ' :: rest) = [] :: splitDotSpace rest := by
        rw [splitDotSpace, if_pos ⟨rfl, rfl⟩]
      rw [this]
    | cons c2 t' =>
      have hsep : ¬ (c = '.' ∧ c2 = ' ') := by
        rintro ⟨rfl, rfl⟩
        rw [hasDS] at hx
        simp at hx
      have ht : hasDS (c2 :: t') = false := hasDS_cons_false hx
      have ih2 := ih ht
      rw [List.cons_append] at ih2
      rw [List.cons_append, List.cons_append, splitDotSpace, if_neg hsep, ih2]

/-- Splitting the concatenation of separator-free pieces, each followed by
the separator, recovers exactly the pieces (plus the final empty piece). -/
lemma splitDotSpace_unitsJoin :
    ∀ xs : List (List Char), (∀ x ∈ xs, hasDS x = false) →
      splitDotSpace ((xs.map (fun x => x ++ ['.', ' '])).flatten) = xs ++ [[]] := by
  intro xs
  induction xs with
  | nil => intro _; simp [splitDotSpace]
  | cons x rest ih =>
    intro hall
    have hx : hasDS x = false := hall x (List.mem_cons_self x rest)
    have hrest := ih (fun y hy => hall y (List.mem_cons_of_mem x hy))
    rw [List.map_cons, List.flatten_cons]
    have : x ++ ['.', ' '] ++ (rest.map (fun x => x ++ ['.', ' '])).flatten
        = x ++ '.' :: ' ' :: (rest.map (fun x => x ++ ['.', ' '])).flatten := by
      simp
    rw [this, splitDotSpace_append hx, hrest]
    simp

/-- Every chunk of `split_into_chunks` has the emitted shape. -/
lemma split_into_chunks_shape (text : List Char) (m o : Nat) :
    ∀ c ∈ split_into_chunks text m o, ChunkShape c := by
  obtain ⟨h1, h2, _⟩ :=
    chunkStep_fold m (splitDotSpace text) [] [] goodCur_nil (by simp)
  rw [split_into_chunks]
  set st := (splitDotSpace text).foldl (chunkStep m) ([], []) with hst
  by_cases hemp : pyStrip st.2 = []
  · simpa [hemp] using h2
  · obtain ⟨hshape, _⟩ := emit_spec h1 hemp
    simp only [if_neg hemp]
    intro c hc
    rcases List.mem_append.1 hc with hc | hc
    · exact h2 c hc
    · rw [List.mem_singleton.1 hc]; exact hshape

lemma emit_ok {S : List (List Char)} {m : Nat} {cur : List Char}
    (hcur : CurOk S m cur) : ChunkOk S m (pyStrip cur) := by
  by_cases hlen : cur.length ≤ m
  · exact Or.inl (le_trans (pyStrip_length_le cur) hlen)
  · rcases hcur with h | ⟨s, hs, rfl⟩
    · exact absurd h hlen
    · refine Or.inr ⟨s, hs, pyStrip_sentUnit s, ?_⟩
      have : (sentUnit s).length = (pyStrip s).length + 2 := by simp [sentUnit]
      omega

lemma chunkStep_fold_bound (S : List (List Char)) (m : Nat) :
    ∀ ss : List (List Char), (∀ s ∈ ss, s ∈ S) →
    ∀ (chunks : List (List Char)) (cur : List Char),
      CurOk S m cur → (∀ c ∈ chunks, ChunkOk S m c) →
      CurOk S m (ss.foldl (chunkStep m) (chunks, cur)).2 ∧
      (∀ c ∈ (ss.foldl (chunkStep m) (chunks, cur)).1, ChunkOk S m c) := by
  intro ss
  induction ss with
  | nil => intro _ chunks cur h1 h2; exact ⟨h1, h2⟩
  | cons s rest ih =>
    intro hS chunks cur h1 h2
    have hsS : s ∈ S := hS s (List.mem_cons_self s rest)
    have hrest : ∀ x ∈ rest, x ∈ S := fun x hx => hS x (List.mem_cons_of_mem s hx)
    rw [List.foldl_cons]
    by_cases hov : m < cur.length + (sentUnit s).length
    · by_cases hemp : pyStrip cur = []
      · have hstep : chunkStep m (chunks, cur) s = (chunks, sentUnit s) := by
          simp [chunkStep, hov, hemp]
        rw [hstep]
        exact ih hrest chunks (sentUnit s) (Or.inr ⟨s, hsS, rfl⟩) h2
      · have hstep : chunkStep m (chunks, cur) s
            = (chunks ++ [pyStrip cur], sentUnit s) := by
          simp [chunkStep, hov, hemp]
        rw [hstep]
        refine ih hrest _ _ (Or.inr ⟨s, hsS, rfl⟩) ?_
        intro c hc
        rcases List.mem_append.1 hc with hc | hc
        · exact h2 c hc
        · rw [List.mem_singleton.1 hc]; exact emit_ok h1
    · have hstep : chunkStep m (chunks, cur) s = (chunks, cur ++ sentUnit s) := by
        simp [chunkStep, hov]
      rw [hstep]
      refine ih hrest _ _ (Or.inl ?_) h2
      rw [List.length_append]
      omega

/-- A single-sentence input (no `". "` occurrence) yields exactly one chunk:
the stripped input with `'.'` appended. -/
lemma split_single (text : List Char) (m o : Nat) (h : splitDotSpace text = [text]) :
    split_into_chunks text m o = [pyStrip text ++ ['.']] := by
  rw [split_into_chunks, h, List.foldl_cons, List.foldl_nil]
  have h0 : pyStrip ([] : List Char) = [] := rfl
  have hstep : chunkStep m ([], []) text = ([], sentUnit text) := by
    simp [chunkStep, h0]
  rw [hstep]
  have hne : pyStrip (sentUnit text) ≠ [] := by
    rw [pyStrip_sentUnit]; simp
  rw [if_neg hne, pyStrip_sentUnit]
  simp

/-- C2 (counterexample): the claim "chunk of the empty string returns an
empty sequence, and chunk of a text with no `\". \"` returns exactly one
chunk equal to the trimmed input" fails on the code: the chunker appends
`\". \"` to every sentence, so `chunk(\"\") = [\".\"]` and
`chunk(\"short text\") = [\"short text.\"]`. -/
theorem C2_counterexample :
    split_into_chunks [] 1000 200 ≠ [] ∧
    split_into_chunks ("short text".toList) 1000 200 ≠ [("short text".toList)] := by
  decide

/-- C2 (amended): chunk of the empty string returns the single chunk
`\".\"`, and chunk of a text containing no occurrence of the separator
`\". \"` returns exactly one chunk equal to the trimmed input with `'.'`
appended. -/
theorem C2_amended_thm (text : List Char) (m o : Nat)
    (h : splitDotSpace text = [text]) :
    split_into_chunks [] m o = [['.']] ∧
    split_into_chunks text m o = [pyStrip text ++ ['.']] := by
  constructor
  · have h0 : splitDotSpace [] = [([] : List Char)] := rfl
    have := split_single [] m o h0
    simpa using this
  · exact split_single text m o h

theorem C2_witness :
    splitDotSpace ("short text".toList) = [("short text".toList)] ∧
    (split_into_chunks [] 1000 200 = [['.']] ∧
     split_into_chunks ("short text".toList) 1000 200
       = [pyStrip ("short text".toList) ++ ['.']]) :=
  ⟨by decide, C2_amended_thm ("short text".toList) 1000 200 (by decide)⟩

/-- C4: the chunks of `chunk(T)` (each chunk followed by the one space that
emission stripped) concatenate to exactly the rewritten sentence sequence
of `T`, and splitting that concatenation back on `\". \"` recovers the
trimmed sentences of `T` in order, none dropped or duplicated (plus the
final empty piece left by the trailing separator). -/
theorem C4_chunks_reconstruct (text : List Char) (m o : Nat) :
    joinSp (split_into_chunks text m o) = unitsJoin (splitDotSpace text) ∧
    splitDotSpace (joinSp (split_into_chunks text m o))
      = (splitDotSpace text).map pyStrip ++ [[]] := by
  refine ⟨split_into_chunks_join text m o, ?_⟩
  rw [split_into_chunks_join text m o, unitsJoin]
  have hmm : (splitDotSpace text).map sentUnit
      = ((splitDotSpace text).map pyStrip).map (fun x => x ++ ['.', ' ']) := by
    rw [List.map_map]; rfl
  rw [hmm]
  apply splitDotSpace_unitsJoin
  intro x hx
  obtain ⟨s, hs, rfl⟩ := List.mem_map.1 hx
  exact hasDS_pyStrip (splitDotSpace_no_sep text s hs)

/-- C5: every chunk of `chunk(T, maxSize)` has length at most `maxSize`,
unless it consists of exactly one (stripped) sentence with `'.'` appended
whose rewritten form exceeds `maxSize` — no sentence is split mid-sentence. -/
theorem C5_chunk_bound (text : List Char) (m o : Nat) (c : List Char)
    (hc : c ∈ split_into_chunks text m o) :
    c.length ≤ m ∨ ∃ s, s ∈ splitDotSpace text ∧ c = pyStrip s ++ ['.'] ∧
      m < (pyStrip s).length + 2 := by
  obtain ⟨h1, h2⟩ := chunkStep_fold_bound (splitDotSpace text) m (splitDotSpace text)
    (fun s hs => hs) [] [] (Or.inl (by simp)) (by simp)
  rw [split_into_chunks] at hc
  by_cases hemp :
      pyStrip ((splitDotSpace text).foldl (chunkStep m) ([], [])).2 = []
  · rw [if_pos hemp] at hc
    exact h2 c hc
  · rw [if_neg hemp] at hc
    rcases List.mem_append.1 hc with hc | hc
    · exact h2 c hc
    · rw [List.mem_singleton.1 hc]
      exact emit_ok h1

theorem C5_witness :
    (("short text.".toList) ∈ split_into_chunks ("short text".toList) 1000 200) ∧
    (("short text.".toList).length ≤ 1000 ∨
     ∃ s, s ∈ splitDotSpace ("short text".toList) ∧
       ("short text.".toList) = pyStrip s ++ ['.'] ∧
       1000 < (pyStrip s).length + 2) :=
  ⟨by decide, C5_chunk_bound ("short text".toList) 1000 200 ("short text.".toList) (by decide)⟩

/-- C10: every chunk returned by `split_into_chunks` — for every input,
including the empty string and texts with no period — is non-empty after
trimming and ends with the character `'.'`. -/
theorem C10_chunk_shape (text : List Char) (m o : Nat) (c : List Char)
    (hc : c ∈ split_into_chunks text m o) :
    pyStrip c ≠ [] ∧ c.getLast? = some '.' := by
  obtain ⟨hnl, y, rfl⟩ := split_into_chunks_shape text m o c hc
  have hself : pyStrip (y ++ ['.']) = y ++ ['.'] := by
    rw [pyStrip, lstrip_eq_self hnl, rstrip_concat_dot]
  refine ⟨by simp [hself], ?_⟩
  exact List.getLast?_concat y

theorem C10_witness :
    (['.'] ∈ split_into_chunks [] 1000 200) ∧
    (pyStrip ['.'] ≠ [] ∧ (['.'] : List Char).getLast? = some '.') :=
  ⟨by decide, C10_chunk_shape [] 1000 200 ['.'] (by decide)⟩

lemma batchResult_length {svc : EmbedSvc}
    (hsvc : ∀ k b vs, svc k b = .ok vs → vs.length = b.length)
    (k : Nat) (b : List (List Char)) :
    (batchResult svc k b).length = b.length := by
  rw [batchResult]
  rcases h : svc k b with e | vs
  · simp
  · exact hsvc k b vs h

lemma batchResult_nil {svc : EmbedSvc}
    (hsvc : ∀ k b vs, svc k b = .ok vs → vs.length = b.length)
    (k : Nat) : batchResult svc k [] = [] :=
  List.eq_nil_of_length_eq_zero (batchResult_length hsvc k [])

lemma embedGo_length {svc : EmbedSvc}
    (hsvc : ∀ k b vs, svc k b = .ok vs → vs.length = b.length) :
    ∀ (k : Nat) (ts : List (List Char)), (embedGo svc k ts).length = ts.length := by
  intro k ts
  induction k, ts using embedGo.induct svc with
  | case1 k => rw [embedGo]; rfl
  | case2 k t ts ih =>
    rw [embedGo, List.length_append, batchResult_length hsvc, ih]
    simp only [List.length_take, List.length_drop, List.length_cons]
    omega

lemma embedGo_slice {svc : EmbedSvc}
    (hsvc : ∀ k b vs, svc k b = .ok vs → vs.length = b.length) :
    ∀ (k j : Nat) (ts : List (List Char)),
      ((embedGo svc j ts).drop (100 * k)).take 100
        = batchResult svc (j + k) ((ts.drop (100 * k)).take 100) := by
  intro k
  induction k with
  | zero =>
    intro j ts
    cases ts with
    | nil =>
      rw [embedGo]
      simp [batchResult_nil hsvc]
    | cons t ts' =>
      rw [embedGo]
      have hblen : (batchResult svc j ((t :: ts').take 100)).length
          = ((t :: ts').take 100).length := batchResult_length hsvc _ _
      by_cases hlen : 100 ≤ (t :: ts').length
      · have h100 : (batchResult svc j ((t :: ts').take 100)).length = 100 := by
          rw [hblen, List.length_take]
          omega
        rw [Nat.mul_zero, List.drop_zero, List.take_left' h100]
        simp
      · have hdrop : (t :: ts').drop 100 = [] := List.drop_eq_nil_of_le (by omega)
        have hnil : embedGo svc (j + 1) ([] : List (List Char)) = [] := by
          rw [embedGo]
        rw [hdrop, hnil, List.append_nil, Nat.mul_zero, List.drop_zero,
          List.take_of_length_le (by rw [hblen, List.length_take]; omega)]
        simp
  | succ k ih =>
    intro j ts
    cases ts with
    | nil =>
      rw [embedGo]
      simp [batchResult_nil hsvc]
    | cons t ts' =>
      rw [embedGo]
      have hblen : (batchResult svc j ((t :: ts').take 100)).length
          = ((t :: ts').take 100).length := batchResult_length hsvc _ _
      by_cases hlen : 100 ≤ (t :: ts').length
      · have h100 : 100 * (k + 1)
            = (batchResult svc j ((t :: ts').take 100)).length + 100 * k := by
          rw [hblen, List.length_take]
          have hmin : min 100 (t :: ts').length = 100 := by omega
          rw [hmin]
          omega
        have hsplit : ((batchResult svc j ((t :: ts').take 100)
              ++ embedGo svc (j + 1) ((t :: ts').drop 100)).drop (100 * (k + 1)))
            = (embedGo svc (j + 1) ((t :: ts').drop 100)).drop (100 * k) := by
          rw [h100, List.drop_append]
        rw [hsplit, ih (j + 1) ((t :: ts').drop 100)]
        have harg : (((t :: ts').drop 100).drop (100 * k)).take 100
            = ((t :: ts').drop (100 * (k + 1))).take 100 := by
          have h200 : 100 + 100 * k = 100 * (k + 1) := by omega
          rw [List.drop_drop, h200]
        rw [harg]
        congr 1
        omega
      · have hdrop : (t :: ts').drop 100 = [] := List.drop_eq_nil_of_le (by omega)
        have hnil : embedGo svc (j + 1) ([] : List (List Char)) = [] := by
          rw [embedGo]
        have hd1 : (batchResult svc j ((t :: ts').take 100)).drop (100 * (k + 1))
            = [] := by
          apply List.drop_eq_nil_of_le
          rw [hblen, List.length_take]
          have : 100 ≤ 100 * (k + 1) := by omega
          omega
        have hd2 : (t :: ts').drop (100 * (k + 1)) = [] := by
          apply List.drop_eq_nil_of_le
          have : 100 ≤ 100 * (k + 1) := by omega
          omega
        rw [hdrop, hnil, List.append_nil, hd1, hd2]
        simp [batchResult_nil hsvc]

/-- C1: for every input sequence, `embed_texts` partitions the texts into
consecutive batches of at most 100 preserving order and returns one vector
per input text, positionally aligned (assuming the service contract: a
successful batch call returns one vector per batch text).  The slice of the
output at batch `k` is `batchResult` of that batch — the service's vectors
in order on success, all-zero vectors of dimension 1536 on a raised batch
call (and batch failures never raise: `embed_texts` is total, the
`try/except` being the `match` inside `batchResult`). -/
theorem C1_embed_batches (svc : EmbedSvc) (texts : List (List Char)) (k : Nat)
    (hsvc : ∀ kk b vs, svc kk b = .ok vs → vs.length = b.length) :
    (embed_texts svc texts).length = texts.length ∧
    ((embed_texts svc texts).drop (100 * k)).take 100
      = batchResult svc k ((texts.drop (100 * k)).take 100) ∧
    (svc k ((texts.drop (100 * k)).take 100) = .error () →
      ((embed_texts svc texts).drop (100 * k)).take 100
        = List.replicate (min 100 (texts.length - 100 * k)) zeroVec) := by
  have hslice : ((embed_texts svc texts).drop (100 * k)).take 100
      = batchResult svc k ((texts.drop (100 * k)).take 100) := by
    have h := embedGo_slice hsvc k 0 texts
    rw [Nat.zero_add] at h
    exact h
  refine ⟨embedGo_length hsvc 0 texts, hslice, ?_⟩
  intro herr
  rw [hslice, batchResult, herr, List.length_take, List.length_drop]

theorem C1_witness :
    (embed_texts (fun _ _ => (Except.error () : Except Unit (List Vec)))
      [['a'], ['b']]).length = 2 ∧
    ((embed_texts (fun _ _ => (Except.error () : Except Unit (List Vec)))
      [['a'], ['b']]).drop 0).take 100 = List.replicate 2 zeroVec := by
  have h := C1_embed_batches (fun _ _ => (Except.error () : Except Unit (List Vec)))
    [['a'], ['b']] 0 (fun kk b vs hh => by cases hh)
  refine ⟨h.1, ?_⟩
  have h3 := h.2.2 rfl
  simpa using h3

/-- C9: `get_pdf_content_from_supabase` never propagates an exception to
its caller (every raised step is caught: the function is total and the
`try/except` is the `match`); whenever any step fails — the download
raises, the download yields no content, or the PDF open/extraction raises —
the call returns the empty string. -/
theorem C9_fetch_degrades_to_empty (w : FetchWorld)
    (hfail : w.download = .error () ∨ w.download = .ok none ∨ w.parse = .error ()) :
    (get_pdf_content_from_supabase w).text = [] := by
  rw [get_pdf_content_from_supabase]
  rcases hd : w.download with e | ob
  · rfl
  · cases ob with
    | none => rfl
    | some bytes =>
      rcases hp : w.parse with e | pages
      · rfl
      · rcases hfail with h | h | h
        · rw [hd] at h
          cases h
        · rw [hd] at h
          simp at h
        · rw [hp] at h
          cases h

theorem C9_witness :
    ((⟨Except.ok none, Except.ok []⟩ : FetchWorld).download = .error () ∨
     (⟨Except.ok none, Except.ok []⟩ : FetchWorld).download = .ok none ∨
     (⟨Except.ok none, Except.ok []⟩ : FetchWorld).parse = .error ()) ∧
    (get_pdf_content_from_supabase ⟨Except.ok none, Except.ok []⟩).text = [] :=
  ⟨Or.inr (Or.inl rfl),
   C9_fetch_degrades_to_empty ⟨Except.ok none, Except.ok []⟩ (Or.inr (Or.inl rfl))⟩

/-- C6 (counterexample): the claim "the scratch file is removed before the
call returns, both on success and on extraction failure" fails on the
code: `os.remove` (line 81) sits inside the `try` block after extraction,
so when `pdfplumber` raises, the `except` branch returns without removing
the scratch file. -/
theorem C6_counterexample :
    (get_pdf_content_from_supabase ⟨Except.ok (some []), Except.error ()⟩).tempWritten
      = true ∧
    (get_pdf_content_from_supabase ⟨Except.ok (some []), Except.error ()⟩).tempRemoved
      = false :=
  ⟨rfl, rfl⟩

/-- C6 (amended): for every invocation that writes the local scratch file,
the file is removed before the call returns exactly when text extraction
completes successfully; when extraction raises, the scratch file is left
behind. -/
theorem C6_amended_thm (w : FetchWorld)
    (hw : (get_pdf_content_from_supabase w).tempWritten = true) :
    ((get_pdf_content_from_supabase w).tempRemoved = true
      ↔ ∃ pages, w.parse = Except.ok pages) := by
  rcases hd : w.download with e | ob
  · rw [get_pdf_content_from_supabase, hd] at hw
    simp at hw
  · cases ob with
    | none =>
      rw [get_pdf_content_from_supabase, hd] at hw
      simp at hw
    | some bytes =>
      rcases hp : w.parse with e | pages
      · rw [get_pdf_content_from_supabase, hd, hp]
        constructor
        · intro h
          simp at h
        · rintro ⟨pages, hpp⟩
          exact Except.noConfusion hpp
      · rw [get_pdf_content_from_supabase, hd, hp]
        exact ⟨fun _ => ⟨pages, rfl⟩, fun _ => rfl⟩

theorem C6_witness :
    ((get_pdf_content_from_supabase
        ⟨Except.ok (some []), Except.ok [some ['A']]⟩).tempWritten = true) ∧
    ((get_pdf_content_from_supabase
        ⟨Except.ok (some []), Except.ok [some ['A']]⟩).tempRemoved = true
      ↔ ∃ pages, (⟨Except.ok (some []), Except.ok [some ['A']]⟩ : FetchWorld).parse
          = Except.ok pages) :=
  ⟨rfl, C6_amended_thm ⟨Except.ok (some []), Except.ok [some ['A']]⟩ rfl⟩

/-- C7: if the fetched text is empty, `process_pdf_and_store_embeddings`
fails the record: it raises after first updating the KnowledgeRecord to
`processed = false` with the non-empty error message, and inserts no
`project_embeddings` rows. -/
theorem C7_empty_text_fails (w : ProcWorld) (pid kid : Nat)
    (fp fn : List Char) (db : DB)
    (hempty : (get_pdf_content_from_supabase w.fetch).text = []) :
    process_pdf_and_store_embeddings w pid kid fp fn db
      = Except.error (noContentMsg, updateRecord kid (markFailed noContentMsg) db) ∧
    noContentMsg ≠ [] ∧
    (updateRecord kid (markFailed noContentMsg) db).embeddings = db.embeddings ∧
    (updateRecord kid (markFailed noContentMsg) db).knowledge
      = db.knowledge.map (fun r => if r.id = kid then
          { r with processed := false, processing_error := some noContentMsg }
          else r) := by
  refine ⟨?_, by simp [noContentMsg], rfl, rfl⟩
  rw [process_pdf_and_store_embeddings]
  simp only [hempty, if_pos]

theorem C7_witness :
    ((get_pdf_content_from_supabase
        (⟨⟨Except.error (), Except.ok []⟩, fun _ _ => Except.error (),
          fun _ => true, false⟩ : ProcWorld).fetch).text = []) ∧
    (process_pdf_and_store_embeddings
        ⟨⟨Except.error (), Except.ok []⟩, fun _ _ => Except.error (),
          fun _ => true, false⟩ 1 1 [] []
        ⟨[⟨1, 1, [], [], false, none, none, none⟩], []⟩
      = Except.error (noContentMsg, updateRecord 1 (markFailed noContentMsg)
          ⟨[⟨1, 1, [], [], false, none, none, none⟩], []⟩) ∧
     noContentMsg ≠ [] ∧
     (updateRecord 1 (markFailed noContentMsg)
        ⟨[⟨1, 1, [], [], false, none, none, none⟩], []⟩).embeddings
       = (⟨[⟨1, 1, [], [], false, none, none, none⟩], []⟩ : DB).embeddings ∧
     (updateRecord 1 (markFailed noContentMsg)
        ⟨[⟨1, 1, [], [], false, none, none, none⟩], []⟩).knowledge
       = (⟨[⟨1, 1, [], [], false, none, none, none⟩], []⟩ : DB).knowledge.map
           (fun r => if r.id = 1 then
             { r with processed := false, processing_error := some noContentMsg }
             else r)) :=
  ⟨rfl, C7_empty_text_fails _ 1 1 [] [] _ rfl⟩

lemma recOutcome_id (w' : ProcWorld) (r : KnowledgeRecord) :
    (recOutcome w' r).id = r.id := by
  rw [recOutcome]
  split_ifs <;> rfl

/-- Whatever the outcome, one processing call maps `project_knowledge`
record-wise: its own record gets `recOutcome`, every other record is
untouched. -/
lemma process_knowledge (w' : ProcWorld) (pid kid : Nat) (fp fn : List Char)
    (db : DB) :
    (resDB (process_pdf_and_store_embeddings w' pid kid fp fn db)).knowledge
      = db.knowledge.map (fun r => if r.id = kid then recOutcome w' r else r) := by
  rw [process_pdf_and_store_embeddings]
  by_cases ht : (get_pdf_content_from_supabase w'.fetch).text = []
  · simp only [ht, if_pos]
    simp [resDB, updateRecord, recOutcome, ht]
  · by_cases hu : w'.successUpdateRaises
    · simp only [ht, if_neg, hu, if_pos]
      simp [resDB, updateRecord, insertRows, recOutcome, ht, hu]
    · simp only [ht, hu]
      simp [resDB, updateRecord, insertRows, recOutcome, ht, hu]

/-- On every path, one processing call leaves the `knowledge` table's
record ids unchanged and only appends to `embeddings`. -/
lemma process_isOk (w' : ProcWorld) (pid kid : Nat) (fp fn : List Char)
    (db : DB)
    (htext : (get_pdf_content_from_supabase w'.fetch).text ≠ [])
    (hupd : w'.successUpdateRaises = false) :
    (process_pdf_and_store_embeddings w' pid kid fp fn db).isOk = true := by
  rw [process_pdf_and_store_embeddings]
  simp [htext, hupd, Except.isOk, Except.toBool]

/-- C3 (counterexample): the claim says the stored error message is cleared
on success, but the success update (lines 157-161) does not touch
`processing_error`: after a fully successful run of `cexWorld` over
`cexDB`, the call returns normally, yet the record keeps its stale error
message `"old"` while `processed`, `processed_at` and `chunks_count` are
set. -/
theorem C3_counterexample :
    (process_pdf_and_store_embeddings cexWorld 1 1 [] [] cexDB).isOk = true ∧
    (resDB (process_pdf_and_store_embeddings cexWorld 1 1 [] [] cexDB)).knowledge
      = [⟨1, 1, [], [], true, some nowStr, some 1, some ['o', 'l', 'd']⟩] := by
  constructor
  · exact process_isOk cexWorld 1 1 [] [] cexDB (by decide) rfl
  · rw [process_knowledge]
    decide

/-- C3 (amended): whenever `process_pdf_and_store_embeddings` reaches the
persistence step without a hard failure and the final status update
succeeds, the call returns normally and the KnowledgeRecord is updated to
`processed = true`, with the processing timestamp set and `chunks_count`
equal to the number of chunks produced by the chunker (not the number of
rows successfully inserted) — but the stored error message is left
unchanged, not cleared. -/
theorem C3_amended_thm (w : ProcWorld) (pid kid : Nat) (fp fn : List Char)
    (db : DB)
    (htext : (get_pdf_content_from_supabase w.fetch).text ≠ [])
    (hupd : w.successUpdateRaises = false) :
    (process_pdf_and_store_embeddings w pid kid fp fn db).isOk = true ∧
    (resDB (process_pdf_and_store_embeddings w pid kid fp fn db)).knowledge
      = db.knowledge.map (fun r => if r.id = kid then
          { r with
            processed := true
            processed_at := some nowStr
            chunks_count := some (split_into_chunks
              (get_pdf_content_from_supabase w.fetch).text 1000 200).length }
          else r) := by
  refine ⟨process_isOk w pid kid fp fn db htext hupd, ?_⟩
  rw [process_knowledge]
  apply List.map_congr_left
  intro r hr
  by_cases h : r.id = kid
  · simp [h, recOutcome, htext, hupd, markSuccess]
  · simp [h]

theorem C3_witness :
    ((get_pdf_content_from_supabase cexWorld.fetch).text ≠ []) ∧
    cexWorld.successUpdateRaises = false ∧
    ((process_pdf_and_store_embeddings cexWorld 1 1 [] [] cexDB).isOk = true ∧
     (resDB (process_pdf_and_store_embeddings cexWorld 1 1 [] [] cexDB)).knowledge
       = cexDB.knowledge.map (fun r => if r.id = 1 then
           { r with
             processed := true
             processed_at := some nowStr
             chunks_count := some (split_into_chunks
               (get_pdf_content_from_supabase cexWorld.fetch).text 1000 200).length }
           else r)) :=
  ⟨by decide, rfl, C3_amended_thm cexWorld 1 1 [] [] cexDB (by decide) rfl⟩

lemma processQueue_cons (w : AllWorld) (r : KnowledgeRecord)
    (rest : List KnowledgeRecord) (db : DB) :
    processQueue w (r :: rest) db
      = processQueue w rest (resDB (process_pdf_and_store_embeddings
          (w.perRecord r.id) r.project_id r.id r.file_path r.file_name db)) := by
  rw [processQueue]
  rcases hres : process_pdf_and_store_embeddings (w.perRecord r.id) r.project_id
      r.id r.file_path r.file_name db with ⟨msg, db'⟩ | db'
  · rw [resDB]
  · rw [resDB]

lemma processQueue_knowledge (w : AllWorld) :
    ∀ (queue : List KnowledgeRecord) (db : DB),
      (processQueue w queue db).knowledge
        = queue.foldl (fun ks r => ks.map (stepFn w r.id)) db.knowledge := by
  intro queue
  induction queue with
  | nil => intro db; rfl
  | cons r rest ih =>
    intro db
    rw [processQueue_cons, ih, List.foldl_cons]
    congr 1
    rw [process_knowledge]
    rfl

lemma foldl_map_comp (w : AllWorld) :
    ∀ (queue : List KnowledgeRecord) (ks : List KnowledgeRecord),
      queue.foldl (fun ks r => ks.map (stepFn w r.id)) ks
        = ks.map (fun rc => queue.foldl (fun rc q => stepFn w q.id rc) rc) := by
  intro queue
  induction queue with
  | nil => intro ks; simp
  | cons r rest ih =>
    intro ks
    rw [List.foldl_cons, ih, List.map_map]
    rfl

lemma applyQueue_not_mem (w : AllWorld) :
    ∀ (queue : List KnowledgeRecord) (rc : KnowledgeRecord),
      rc.id ∉ queue.map (fun q => q.id) → applyQueue w queue rc = rc := by
  intro queue
  induction queue with
  | nil => intro rc _; rfl
  | cons q rest ih =>
    intro rc h
    rw [List.map_cons, List.mem_cons] at h
    push_neg at h
    rw [applyQueue, List.foldl_cons]
    have hstep : stepFn w q.id rc = rc := by
      rw [stepFn, if_neg h.1]
    rw [hstep]
    exact ih rc h.2

lemma applyQueue_mem (w : AllWorld) :
    ∀ (queue : List KnowledgeRecord) (rc : KnowledgeRecord),
      rc.id ∈ queue.map (fun q => q.id) → (queue.map (fun q => q.id)).Nodup →
      applyQueue w queue rc = recOutcome (w.perRecord rc.id) rc := by
  intro queue
  induction queue with
  | nil => intro rc h _; simp at h
  | cons q rest ih =>
    intro rc h hnodup
    rw [List.map_cons, List.mem_cons] at h
    rw [List.map_cons, List.nodup_cons] at hnodup
    rw [applyQueue, List.foldl_cons]
    by_cases hq : rc.id = q.id
    · have hstep : stepFn w q.id rc = recOutcome (w.perRecord rc.id) rc := by
        rw [stepFn, if_pos hq, hq]
      rw [hstep]
      have hout : (recOutcome (w.perRecord rc.id) rc).id ∉ rest.map (fun q => q.id) := by
        rw [recOutcome_id, hq]
        exact hnodup.1
      exact applyQueue_not_mem w rest _ hout
    · have hstep : stepFn w q.id rc = rc := by
        rw [stepFn, if_neg hq]
      rw [hstep]
      rcases h with h | h
      · exact absurd h hq
      · exact ih rc h hnodup.2

/-- C8: with the initial query succeeding and record ids distinct,
`process_all_unprocessed_pdfs` attempts exactly the records with
`processed = false`, sequentially in order; each such record ends in the
terminal state of its own attempt (`recOutcome`) — so a record that raises
is caught and every subsequent record is still processed — records with
`processed = true` are untouched, and no exception escapes (the scan is a
total function, the per-record `try/except` being the `match` in
`processQueue`). -/
theorem C8_queue_scan (w : AllWorld) (db : DB)
    (hq : w.queryRaises = false)
    (hnodup : (db.knowledge.map (fun r => r.id)).Nodup) :
    (process_all_unprocessed_pdfs w db).knowledge
      = db.knowledge.map (fun r =>
          if r.processed = false then recOutcome (w.perRecord r.id) r else r) := by
  rw [process_all_unprocessed_pdfs, get_unprocessed_pdfs, hq]
  rw [if_neg (by simp)]
  rw [processQueue_knowledge, foldl_map_comp]
  apply List.map_congr_left
  intro r hr
  set queue := db.knowledge.filter (fun r => r.processed == false) with hqueue
  have hsub : List.Sublist (queue.map (fun q => q.id))
      (db.knowledge.map (fun q => q.id)) :=
    (List.filter_sublist db.knowledge).map (fun q => q.id)
  have hqnodup : (queue.map (fun q => q.id)).Nodup := hnodup.sublist hsub
  by_cases hp : r.processed = false
  · have hrq : r ∈ queue := List.mem_filter.2 ⟨hr, by simp [hp]⟩
    have hmem : r.id ∈ queue.map (fun q => q.id) := List.mem_map.2 ⟨r, hrq, rfl⟩
    have happ := applyQueue_mem w queue r hmem hqnodup
    rw [applyQueue] at happ
    rw [happ, if_pos hp]
  · have hmem : r.id ∉ queue.map (fun q => q.id) := by
      intro hmem
      obtain ⟨q, hq1, hq2⟩ := List.mem_map.1 hmem
      have hq3 : q ∈ db.knowledge := List.mem_of_mem_filter hq1
      have hqr : q = r := List.inj_on_of_nodup_map hnodup hq3 hr hq2
      have hq4 := List.of_mem_filter hq1
      rw [hqr] at hq4
      simp at hq4
      exact hp hq4
    have happ := applyQueue_not_mem w queue r hmem
    rw [applyQueue] at happ
    rw [happ, if_neg hp]

theorem C8_witness :
    scanWorld.queryRaises = false ∧
    (scanDB.knowledge.map (fun r => r.id)).Nodup ∧
    (process_all_unprocessed_pdfs scanWorld scanDB).knowledge
      = scanDB.knowledge.map (fun r =>
          if r.processed = false then recOutcome (scanWorld.perRecord r.id) r
          else r) :=
  ⟨rfl, by decide, C8_queue_scan scanWorld scanDB rfl (by decide)⟩
